import Mathlib

/-!
Verification of the jsonpatch library (patch.go, diff.go).

The development shallowly embeds the library's data model and algorithms:

* Go's lazy `Node` is embedded as a classified tree: a non-container value
  (`eOther` in the source) keeps its raw encoded bytes as a `String`; an
  object (`eDoc` / `partialDoc`) is an ordered sequence of key/child pairs
  (the source pairs an insertion-ordered `keys` slice with a map, with unique
  keys); an array (`eAry` / `partialArray`) is an ordered sequence of children.
  The `eRaw` state is only a lazy-parsing cache in the source: every structural
  operation first forces classification through `intoContainer`/`checkWhich`,
  so the embedding works on already-classified trees.  Raw scalar spans are
  assumed to be single whitespace-free tokens (the JSON tokenizer that
  produces them is an external collaborator of the library).
* Go `nil` pointers of type `*Node` are embedded as `Option Node` at the
  places where the source can produce them; a nil-pointer dereference
  (a Go runtime panic) is embedded as an `Except` error distinct from the
  library's ordinary error returns.
* Patch application mutates the document in place through pointers; the
  embedding threads the document state functionally, rebuilding along the
  resolved path, which is observationally the same tree transformation.
-/

namespace JsonPatch

mutual

/-- One JSON value, as classified by `checkWhich`/`intoContainer` in patch.go:
a raw scalar byte span (`eOther`), an ordered object (`eDoc`), or an array
(`eAry`). -/
inductive Node where
  | scalar (raw : String)
  | obj (fields : Fields)
  | arr (elems : Elems)

/-- The field sequence of a `partialDoc`: insertion-ordered key/value pairs
(the source keeps `keys []string` next to `obj map[string]*Node`; keys are
unique). -/
inductive Fields where
  | nil
  | fcons (key : String) (val : Node) (rest : Fields)

/-- The element sequence of a `partialArray`. -/
inductive Elems where
  | nil
  | econs (head : Node) (rest : Elems)

end

/-- Number of fields of an object; `len(d.obj)` / `len(d.keys)` in Go. -/
def fieldsLength : Fields → Nat
  | .nil => 0
  | .fcons _ _ rest => fieldsLength rest + 1

/-- Number of elements of an array; `len(*d)` in Go. -/
def elemsLength : Elems → Nat
  | .nil => 0
  | .econs _ rest => elemsLength rest + 1

/-- The insertion-ordered key list of an object (`d.keys`). -/
def fieldKeys : Fields → List String
  | .nil => []
  | .fcons k _ rest => k :: fieldKeys rest

/-- Map lookup `d.obj[key]`: `none` embeds the Go `nil` pointer returned for
an absent key. -/
def flookup (k : String) : Fields → Option Node
  | .nil => none
  | .fcons k' v rest => if k' == k then some v else flookup k rest

/-- `partialDoc.set`: overwrite the value of an existing key in place, or
append a new key at the end of the key order.  `partialDoc.add` is the same
function in the source. -/
def fset : Fields → String → Node → Fields
  | .nil, key, v => .fcons key v .nil
  | .fcons k w rest, key, v =>
    if k == key then .fcons k v rest
    else .fcons k w (fset rest key v)

/-- Deletion of a key from a `partialDoc` (the body of `partialDoc.remove`
once the key is known to be present): drop it from the key order and the map. -/
def fdelete : Fields → String → Fields
  | .nil, _ => .nil
  | .fcons k w rest, key => if k == key then rest else .fcons k w (fdelete rest key)

/-- `(*d)[i]` for an array, after index resolution. -/
def eget (i : Nat) : Elems → Option Node
  | .nil => none
  | .econs x rest => match i with
    | 0 => some x
    | j + 1 => eget j rest

/-- `(*d)[i] = v` for an array (index known to be in range). -/
def eset (i : Nat) (v : Node) : Elems → Elems
  | .nil => .nil
  | .econs x rest => match i with
    | 0 => .econs v rest
    | j + 1 => .econs x (eset j v rest)

/-- The element-shifting insertion performed by `partialArray.add`
(`copy(ary[0:idx]); ary[idx] = val; copy(ary[idx+1:], cur[idx:])`). -/
def einsertAt : Nat → Node → Elems → Elems
  | 0, v, xs => .econs v xs
  | _ + 1, v, .nil => .econs v .nil
  | i + 1, v, .econs x rest => .econs x (einsertAt i v rest)

/-- The element-shifting deletion performed by `partialArray.remove`
(`copy(ary[0:idx]); copy(ary[idx:], cur[idx+1:])`). -/
def eeraseAt : Nat → Elems → Elems
  | _, .nil => .nil
  | 0, .econs _ rest => rest
  | i + 1, .econs x rest => .econs x (eeraseAt i rest)

/-- `append(*d, val)` for the `-` append token of `partialArray.add`. -/
def eappendOne : Elems → Node → Elems
  | .nil, v => .econs v .nil
  | .econs x rest, v => .econs x (eappendOne rest v)

/-- Concatenation on `Elems` (a run of successive appends). -/
def eappendAll : Elems → Elems → Elems
  | .nil, ys => ys
  | .econs x rest, ys => .econs x (eappendAll rest ys)

/-- `n` copies of a node, used for the null padding in `ensurePathExists`. -/
def ereplicate : Nat → Node → Elems
  | 0, _ => .nil
  | n + 1, v => .econs v (ereplicate n v)

/-- `isNull` on a node's raw bytes (patch.go `isNull`/`Node.isNull`): true for
the literal `null` (a nil or empty raw span is normalized to `null` by
`NewNode`).  A classified object or array never has raw bytes `null`. -/
def nodeIsNull : Node → Bool
  | .scalar s => s == "null"
  | _ => false

mutual

/-- `Node.Equal` (patch.go): structural equality.  Two non-containers compare
by raw byte equality (`bytes.Equal(*n.raw, *o.raw)`); a non-container never
equals a container; objects compare by map size and per-key recursive
equality of the key sets (key order ignored); arrays compare by length and
per-index recursive equality. -/
def nodeEqual : Node → Node → Bool
  | .scalar a, .scalar b => a == b
  | .scalar _, _ => false
  | .obj f, .obj g => (fieldsLength f == fieldsLength g) && fieldsSubset f g
  | .obj _, _ => false
  | .arr xs, .arr ys => (elemsLength xs == elemsLength ys) && elemsPointwise xs ys
  | .arr _, _ => false

/-- The per-key loop of `Node.Equal` for objects: every key of the left map
must exist in the right map with a recursively equal value. -/
def fieldsSubset : Fields → Fields → Bool
  | .nil, _ => true
  | .fcons k v rest, g =>
    (match flookup k g with
     | some w => nodeEqual v w
     | none => false) && fieldsSubset rest g

/-- The per-index loop of `Node.Equal` for arrays (run under the length
equality guard). -/
def elemsPointwise : Elems → Elems → Bool
  | .econs x xr, .econs y yr => nodeEqual x y && elemsPointwise xr yr
  | _, _ => true

end

mutual

/-- Length in bytes of `MarshalJSON` output (patch.go `Node.MarshalJSON`,
`partialDoc.MarshalJSON`): a non-container emits its raw token verbatim; an
object emits `{`, comma-separated `"key":value` pairs in key order, `}`; an
array emits `[`, comma-separated elements, `]`.  Keys are assumed free of
characters the JSON string encoder would escape, so a marshalled key takes
`len(key) + 2` bytes. -/
def marshalLen : Node → Nat
  | .scalar s => s.length
  | .obj f => 2 + fieldsMarshalLen f
  | .arr xs => 2 + elemsMarshalLen xs

/-- Marshalled byte length of object fields including `"`, `:` and the commas
between consecutive fields. -/
def fieldsMarshalLen : Fields → Nat
  | .nil => 0
  | .fcons k v .nil => k.length + 3 + marshalLen v
  | .fcons k v (.fcons k' v' rest) =>
      k.length + 3 + marshalLen v + 1 + fieldsMarshalLen (.fcons k' v' rest)

/-- Marshalled byte length of array elements including the commas between
consecutive elements. -/
def elemsMarshalLen : Elems → Nat
  | .nil => 0
  | .econs x .nil => marshalLen x
  | .econs x (.econs y rest) => marshalLen x + 1 + elemsMarshalLen (.econs y rest)

end

/-! String utilities: path splitting (`strings.Split(path, "/")`), RFC 6901
token escaping, and `strconv.Atoi`. -/

/-- `strings.Split` with a one-character separator, on the character list of
a string: splitting the empty string yields one empty segment. -/
def splitChars (sep : Char) : List Char → List (List Char)
  | [] => [[]]
  | c :: rest =>
    let r := splitChars sep rest
    if c == sep then [] :: r
    else match r with
      | seg :: segs => (c :: seg) :: segs
      | [] => [[c]]

/-- `strings.Split(s, sep)` for the single-character separators used by the
library (`/`). -/
def strSplit (sep : Char) (s : String) : List String :=
  (splitChars sep s.data).map String.mk

/-- Replace every `~1` by `/` (first pass of the RFC 6901 decoder). -/
def decodeTildeOne : List Char → List Char
  | '~' :: '1' :: rest => '/' :: decodeTildeOne rest
  | c :: rest => c :: decodeTildeOne rest
  | [] => []

/-- Replace every `~0` by `~` (second pass of the RFC 6901 decoder). -/
def decodeTildeZero : List Char → List Char
  | '~' :: '0' :: rest => '~' :: decodeTildeZero rest
  | c :: rest => c :: decodeTildeZero rest
  | [] => []

/-- `decodePatchKey`: the rfc6901Decoder replacer, `~1` to `/` then `~0` to
`~`. -/
def decodePatchKey (k : String) : String :=
  String.mk (decodeTildeZero (decodeTildeOne k.data))

/-- Replace every `~` by `~0` (first pass of the RFC 6901 encoder). -/
def encodeTilde : List Char → List Char
  | '~' :: rest => '~' :: '0' :: encodeTilde rest
  | c :: rest => c :: encodeTilde rest
  | [] => []

/-- Replace every `/` by `~1` (second pass of the RFC 6901 encoder). -/
def encodeSlash : List Char → List Char
  | '/' :: rest => '~' :: '1' :: encodeSlash rest
  | c :: rest => c :: encodeSlash rest
  | [] => []

/-- `encodePatchKey`: the rfc6901Encoder replacer, `~` to `~0` then `/` to
`~1`. -/
def encodePatchKey (k : String) : String :=
  String.mk (encodeSlash (encodeTilde k.data))

/-- Decimal digit run for `strconv.Atoi`. -/
def parseDigitsAux : List Char → Nat → Option Nat
  | [], acc => some acc
  | c :: rest, acc =>
    if c.isDigit then parseDigitsAux rest (acc * 10 + (c.toNat - 48))
    else none

/-- At least one decimal digit, most significant first. -/
def parseDigits : List Char → Option Nat
  | [] => none
  | cs => parseDigitsAux cs 0

/-- `strconv.Atoi`: an optional sign followed by decimal digits; anything
else is an error (`none`).  The Go int range is not modelled: array indices
in scope are far below it. -/
def parseInt (s : String) : Option Int :=
  match s.data with
  | [] => none
  | c :: rest =>
    if c == '-' then (parseDigits rest).map (fun n => -(n : Int))
    else if c == '+' then (parseDigits rest).map (fun n => (n : Int))
    else (parseDigits (c :: rest)).map (fun n => (n : Int))

/-! Configuration and operations. -/

/-- `Options` for `ApplyWithOptions` (patch.go). -/
structure Options where
  supportNegativeIndices : Bool
  accumulatedCopySizeLimit : Int
  allowMissingPathOnRemove : Bool
  ensurePathExistsOnAdd : Bool

/-- `NewOptions`: the defaults (the two package-level globals keep their
declared defaults: negative indices on, no copy size limit). -/
def newOptions : Options := ⟨true, 0, false, false⟩

/-- `DiffOptions` (diff.go): the optional identity key. -/
structure DiffOptions where
  idKey : String

/-- One RFC 6902 `Operation`.  `add`/`replace` values go through
`NewNode(op.Value)`, which normalizes an absent value to JSON `null`, so they
are plain nodes here; for `test` the source distinguishes an absent value
(`op.Value == nil`) from a present `null`, so the value is optional. -/
inductive Op where
  | add (path : String) (value : Node)
  | remove (path : String)
  | replace (path : String) (value : Node)
  | move (fromPath path : String)
  | copy (fromPath path : String)
  | test (path : String) (value : Option Node)

/-- A `Patch` is an ordered operation list. -/
abbrev Patch := List Op

/-- The error outcomes of the patch engine.  `missing` stands for errors
whose text contains `ErrMissing` ("missing value"); `invalidIndex` for
`ErrInvalidIndex`; `badIndexToken` for a `strconv.Atoi` failure returned
as-is; `invalidNode` for `ErrInvalid`; `copyOverflow` for
`AccumulatedCopySizeError` with its limit and accumulated fields;
`pathNotFound` is the internal signal that `findObject` returned a nil
container (each operation maps it to its own failure); `panicked` marks Go
code paths that are unreachable from the operations but would be runtime
panics (e.g. `partialArray.set` out of range). -/
inductive PatchErr where
  | missing
  | invalidIndex
  | badIndexToken
  | invalidNode
  | testFailed
  | copyOverflow (limit accumulated : Int)
  | pathNotFound
  | replaceImpossible
  | panicked
deriving DecidableEq

/-! The patch engine (patch.go). -/

/-- Array index resolution shared by `partialArray.get`/`set`/`add` call
sites that address an existing element: resolve a negative index against the
length when `SupportNegativeIndices` is set, and bounds-check. -/
def arrResolveIdx (len : Nat) (key : String) (o : Options) : Except PatchErr Nat :=
  match parseInt key with
  | none => .error .badIndexToken
  | some idx =>
    if idx < 0 then
      if !o.supportNegativeIndices || idx < -(len : Int) then .error .invalidIndex
      else .ok (idx + len).toNat
    else if (len : Int) ≤ idx then .error .invalidIndex
    else .ok idx.toNat

/-- `container.get`: `partialDoc.get` fails with `ErrMissing` on an absent
key; `partialArray.get` resolves the index and fails with `ErrInvalidIndex`
out of bounds (or returns the Atoi error).  Never called on a non-container
by the engine. -/
def containerGet (c : Node) (key : String) (o : Options) : Except PatchErr Node :=
  match c with
  | .obj f =>
    match flookup key f with
    | some v => .ok v
    | none => .error .missing
  | .arr xs =>
    match arrResolveIdx (elemsLength xs) key o with
    | .error e => .error e
    | .ok i =>
      match eget i xs with
      | some v => .ok v
      | none => .error .invalidIndex
  | .scalar _ => .error .invalidNode

/-- `partialArray.add`: `-` appends; otherwise the index may equal the new
length (insert at the end), negative indices resolve against `len + 1`. -/
def arrAdd (xs : Elems) (key : String) (v : Node) (o : Options) : Except PatchErr Elems :=
  if key == "-" then .ok (eappendOne xs v)
  else match parseInt key with
  | none => .error .badIndexToken
  | some idx =>
    let sz : Int := (elemsLength xs : Int) + 1
    if sz ≤ idx then .error .invalidIndex
    else if idx < 0 then
      if !o.supportNegativeIndices || idx < -sz then .error .invalidIndex
      else .ok (einsertAt (idx + sz).toNat v xs)
    else .ok (einsertAt idx.toNat v xs)

/-- `partialArray.remove`: an index at or past the length (and a negative
index below `-len`) is a no-op under `AllowMissingPathOnRemove`, otherwise
`ErrInvalidIndex`; a negative index with negative-index support disabled is
always `ErrInvalidIndex`. -/
def arrRemove (xs : Elems) (key : String) (o : Options) : Except PatchErr Elems :=
  match parseInt key with
  | none => .error .badIndexToken
  | some idx =>
    let sz : Int := (elemsLength xs : Int)
    if sz ≤ idx then
      if o.allowMissingPathOnRemove then .ok xs else .error .invalidIndex
    else if idx < 0 then
      if !o.supportNegativeIndices then .error .invalidIndex
      else if idx < -sz then
        if o.allowMissingPathOnRemove then .ok xs else .error .invalidIndex
      else .ok (eeraseAt (idx + sz).toNat xs)
    else .ok (eeraseAt idx.toNat xs)

/-- `partialArray.set`: only negative indices are checked; a non-negative
index at or past the length would be a Go slice-bounds panic (the `replace`
operation guards it with a prior `get`). -/
def arrSet (xs : Elems) (key : String) (v : Node) (o : Options) : Except PatchErr Elems :=
  match parseInt key with
  | none => .error .badIndexToken
  | some idx =>
    let sz : Int := (elemsLength xs : Int)
    if idx < 0 then
      if !o.supportNegativeIndices || idx < -sz then .error .invalidIndex
      else .ok (eset (idx + sz).toNat v xs)
    else if sz ≤ idx then .error .panicked
    else .ok (eset idx.toNat v xs)

/-- `container.add` dispatch. -/
def containerAdd (c : Node) (key : String) (v : Node) (o : Options) : Except PatchErr Node :=
  match c with
  | .obj f => .ok (.obj (fset f key v))
  | .arr xs => (arrAdd xs key v o).map .arr
  | .scalar _ => .error .invalidNode

/-- `container.set` dispatch. -/
def containerSet (c : Node) (key : String) (v : Node) (o : Options) : Except PatchErr Node :=
  match c with
  | .obj f => .ok (.obj (fset f key v))
  | .arr xs => (arrSet xs key v o).map .arr
  | .scalar _ => .error .invalidNode

/-- `container.remove` dispatch; `partialDoc.remove` honours
`AllowMissingPathOnRemove` for an absent key. -/
def containerRemove (c : Node) (key : String) (o : Options) : Except PatchErr Node :=
  match c with
  | .obj f =>
    if (flookup key f).isNone then
      if o.allowMissingPathOnRemove then .ok c else .error .missing
    else .ok (.obj (fdelete f key))
  | .arr xs => (arrRemove xs key o).map .arr
  | .scalar _ => .error .invalidNode

/-- The split step of `findObject`: fewer than two segments means no
container; otherwise all but the last segment walk containers and the last
is the key (the segment before the first `/` is dropped unchecked). -/
def splitLast : List String → Option (List String × String)
  | [] => none
  | [k] => some ([], k)
  | p :: rest =>
    match splitLast rest with
    | some (ps, k) => some (p :: ps, k)
    | none => none

/-- Path splitting of `findObject`/`ensurePathExists`:
`strings.Split(path, "/")` then separate intermediate parts from the final
key. -/
def findParts (path : String) : Option (List String × String) :=
  match strSplit '/' path with
  | [] => none
  | [_] => none
  | _ :: rest => splitLast rest

/-- The walking loop of `findObject`: each intermediate token is decoded and
resolved with `get`, and the child must classify as a container
(`intoContainer`); any failure makes `findObject` return a nil container. -/
def walkContainers (o : Options) : Node → List String → Option Node
  | c, [] => some c
  | c, part :: rest =>
    match containerGet c (decodePatchKey part) o with
    | .error _ => none
    | .ok next =>
      match next with
      | .scalar _ => none
      | nc => walkContainers o nc rest

/-- In-place mutation at the container resolved by `findObject`: walk the
intermediate tokens exactly as `walkContainers` and run the action on the
final container; the functional embedding writes the updated child back at
the position `get` resolved.  A failed walk is reported as `pathNotFound`
(the Go nil container), distinct from any action error. -/
def mutateGo (o : Options) (act : Node → Except PatchErr Node) :
    Node → List String → Except PatchErr Node
  | c, [] => act c
  | c, part :: rest =>
    let key := decodePatchKey part
    match c with
    | .obj f =>
      match flookup key f with
      | none => .error .pathNotFound
      | some next =>
        match next with
        | .scalar _ => .error .pathNotFound
        | nc =>
          match mutateGo o act nc rest with
          | .error e => .error e
          | .ok nc' => .ok (.obj (fset f key nc'))
    | .arr xs =>
      match arrResolveIdx (elemsLength xs) key o with
      | .error _ => .error .pathNotFound
      | .ok i =>
        match eget i xs with
        | none => .error .pathNotFound
        | some next =>
          match next with
          | .scalar _ => .error .pathNotFound
          | nc =>
            match mutateGo o act nc rest with
            | .error e => .error e
            | .ok nc' => .ok (.arr (eset i nc' xs))
    | .scalar _ => .error .pathNotFound

/-- `findObject` followed by a mutation of the resolved container with the
decoded final key. -/
def mutatePath (o : Options) (root : Node) (path : String)
    (act : Node → String → Except PatchErr Node) : Except PatchErr Node :=
  match findParts path with
  | none => .error .pathNotFound
  | some (parts, key) => mutateGo o (fun c => act c (decodePatchKey key)) root parts

/-- Read-only `findObject` + `get` (used by `move`, `copy` and `test`). -/
def resolveGet (root : Node) (path : String) (o : Options) : Except PatchErr Node :=
  match findParts path with
  | none => .error .pathNotFound
  | some (parts, key) =>
    match walkContainers o root parts with
    | none => .error .pathNotFound
    | some con => containerGet con (decodePatchKey key) o

/-- Does a container `get` succeed?  (`target == nil || ok != nil` test of
`ensurePathExists`.) -/
def ensureGet (c : Node) (key : String) (o : Options) : Option Node :=
  match containerGet c key o with
  | .ok v => some v
  | .error _ => none

/-- Write an updated child back at a key resolved by a successful `get`
(the Go code mutates the child through its pointer). -/
def ensureWriteBack (c : Node) (key : String) (tc' : Node) (o : Options) : Node :=
  match c with
  | .obj f => .obj (fset f key tc')
  | .arr xs =>
    match arrResolveIdx (elemsLength xs) key o with
    | .ok i => .arr (eset i tc' xs)
    | .error _ => c
  | .scalar _ => c

/-- `doc.add(part, node, options)` inside `ensurePathExists`: the result is
discarded in the source, so a failing add leaves the container unchanged
(the Go code then keeps building inside the detached node).  Note the raw,
undecoded `part` is used here, exactly as in the source. -/
def ensureAdd (c : Node) (part : String) (v : Node) (o : Options) : Node :=
  match containerAdd c part v o with
  | .ok c' => c'
  | .error _ => c

/-- The walking loop of `ensurePathExists` (patch.go): create every missing
intermediate container, choosing array vs object from the next token,
padding arrays with nulls up to the required index; stop once only the final
key is left. -/
def ensureGo (o : Options) : Node → List String → Except PatchErr Node
  | c, [] => .ok c
  | c, [_] => .ok c
  | c, part :: next :: rest =>
    match ensureGet c (decodePatchKey part) o with
    | some target =>
      match target with
      | .scalar _ => .error .invalidNode
      | tc =>
        match ensureGo o tc (next :: rest) with
        | .error e => .error e
        | .ok tc' => .ok (ensureWriteBack c (decodePatchKey part) tc' o)
    | none =>
      let c1 : Node :=
        match parseInt part, c with
        | some ai, .arr xs =>
          if (elemsLength xs : Int) + 1 ≤ ai then
            .arr (eappendAll xs (ereplicate (ai.toNat - elemsLength xs) (.scalar "null")))
          else c
        | _, _ => c
      let nIdx : Option Int := parseInt next
      if nIdx.isSome || next == "-" then
        let ai : Int := nIdx.getD 0
        if ai < 0 && !o.supportNegativeIndices then .error .invalidIndex
        else if ai < -1 then .error .invalidIndex
        else
          let newArr : Node := .arr (ereplicate (if ai < 0 then 0 else ai.toNat) (.scalar "null"))
          match ensureGo o newArr (next :: rest) with
          | .error e => .error e
          | .ok newArr' => .ok (ensureAdd c1 part newArr' o)
      else
        match ensureGo o (.obj .nil) (next :: rest) with
        | .error e => .error e
        | .ok newObj' => .ok (ensureAdd c1 part newObj' o)

/-- `ensurePathExists(pd, path, options)`: nothing to do for a path with
fewer than two segments. -/
def ensurePathExists (root : Node) (path : String) (o : Options) : Except PatchErr Node :=
  match strSplit '/' path with
  | [] => .ok root
  | [_] => .ok root
  | _ :: parts => ensureGo o root parts

/-- `Patch.add`: optional `ensurePathExists`, then insert the value at the
resolved container; a nil container is `ErrMissing`. -/
def opAdd (root : Node) (path : String) (v : Node) (o : Options) : Except PatchErr Node :=
  match (if o.ensurePathExistsOnAdd then ensurePathExists root path o else .ok root) with
  | .error e => .error e
  | .ok root' =>
    match mutatePath o root' path (fun con key => containerAdd con key v o) with
    | .error .pathNotFound => .error .missing
    | r => r

/-- `Patch.remove`: a nil container is a no-op under
`AllowMissingPathOnRemove` and `ErrMissing` otherwise; a resolved container
delegates to `container.remove`. -/
def opRemove (root : Node) (path : String) (o : Options) : Except PatchErr Node :=
  match mutatePath o root path (fun con key => containerRemove con key o) with
  | .error .pathNotFound =>
    if o.allowMissingPathOnRemove then .ok root else .error .missing
  | r => r

/-- `Patch.replace`: the empty path replaces the whole document and requires
the value to classify as a container; otherwise the key must `get`
successfully (any get failure is reported as `ErrMissing`) before `set`. -/
def opReplace (root : Node) (path : String) (v : Node) (o : Options) : Except PatchErr Node :=
  if path == "" then
    match v with
    | .scalar _ => .error .replaceImpossible
    | nv => .ok nv
  else
    match mutatePath o root path (fun con key =>
      match containerGet con key o with
      | .error _ => .error .missing
      | .ok _ => containerSet con key v o) with
    | .error .pathNotFound => .error .missing
    | r => r

/-- `Patch.move`: get at `from`, remove at `from`, then add at `path`. -/
def opMove (root : Node) (fromPath tgt : String) (o : Options) : Except PatchErr Node :=
  match resolveGet root fromPath o with
  | .error .pathNotFound => .error .missing
  | .error e => .error e
  | .ok val =>
    match mutatePath o root fromPath (fun con key => containerRemove con key o) with
    | .error .pathNotFound => .error .missing
    | .error e => .error e
    | .ok root' =>
      match mutatePath o root' tgt (fun con key => containerAdd con key val o) with
      | .error .pathNotFound => .error .missing
      | r => r

/-- `isNull(op.Value)` for a test operation: an absent raw value or the
literal `null`. -/
def opValueIsNull : Option Node → Bool
  | none => true
  | some v => nodeIsNull v

/-- `NewNode(op.Value)`: an absent value is normalized to JSON `null`. -/
def newNodeOfValue : Option Node → Node
  | none => .scalar "null"
  | some v => v

/-- `Patch.test`: the empty path compares the whole document; otherwise the
value at the resolved key is read, tolerating only a `get` error whose text
contains `ErrMissing` (so an absent object key is treated as nil, while an
out-of-range array index error propagates); nil-or-null compares equal to a
null-or-absent operation value; a present non-null value requires a present
operation value and node equality. -/
def opTest (root : Node) (path : String) (v : Option Node) (o : Options) :
    Except PatchErr Unit :=
  if path == "" then
    if nodeEqual root (newNodeOfValue v) then .ok () else .error .testFailed
  else
    match findParts path with
    | none => .error .missing
    | some (parts, key) =>
      match walkContainers o root parts with
      | none => .error .missing
      | some con =>
        match containerGet con (decodePatchKey key) o with
        | .error .missing =>
          if opValueIsNull v then .ok () else .error .testFailed
        | .error e => .error e
        | .ok val =>
          if nodeIsNull val then
            if opValueIsNull v then .ok () else .error .testFailed
          else
            match v with
            | none => .error .testFailed
            | some w => if nodeEqual val w then .ok () else .error .testFailed

/-- `Patch.copy`: get at `from`, resolve the target container, deep-copy
(marshal and re-parse, whose tree is the value itself and whose byte size is
`marshalLen`), add the size to the running counter, fail with the
accumulated-copy-size error once the counter passes a positive limit, and
only then add the copy at the target. -/
def opCopy (root : Node) (fromPath tgt : String) (acc : Int) (o : Options) :
    Except PatchErr (Node × Int) :=
  match findParts fromPath with
  | none => .error .missing
  | some (fparts, fkey) =>
    match walkContainers o root fparts with
    | none => .error .missing
    | some fcon =>
      match containerGet fcon (decodePatchKey fkey) o with
      | .error e => .error e
      | .ok val =>
        match findParts tgt with
        | none => .error .missing
        | some (tparts, _tkey) =>
          match walkContainers o root tparts with
          | none => .error .missing
          | some _ =>
            if 0 < o.accumulatedCopySizeLimit ∧
                o.accumulatedCopySizeLimit < acc + (marshalLen val : Int) then
              .error (.copyOverflow o.accumulatedCopySizeLimit
                (acc + (marshalLen val : Int)))
            else
              match mutatePath o root tgt (fun con key => containerAdd con key val o) with
              | .error .pathNotFound => .error .missing
              | .error e => .error e
              | .ok root' => .ok (root', acc + (marshalLen val : Int))

/-- One iteration of the operation loop of `Node.Patch`, threading the
document and the accumulated copy size (only `copy` touches the counter). -/
def execOp (d : Node) (acc : Int) (op : Op) (o : Options) :
    Except PatchErr (Node × Int) :=
  match op with
  | .add p v => (opAdd d p v o).map (fun d' => (d', acc))
  | .remove p => (opRemove d p o).map (fun d' => (d', acc))
  | .replace p v => (opReplace d p v o).map (fun d' => (d', acc))
  | .move f p => (opMove d f p o).map (fun d' => (d', acc))
  | .test p v => (opTest d p v o).map (fun _ => (d, acc))
  | .copy f p => opCopy d f p acc o

/-- The operation loop of `Node.Patch`: operations run strictly in sequence
and the first error aborts the loop. -/
def runOps (d : Node) (acc : Int) (ops : List Op) (o : Options) :
    Except PatchErr (Node × Int) :=
  match ops with
  | [] => .ok (d, acc)
  | op :: rest =>
    match execOp d acc op o with
    | .error e => .error e
    | .ok (d', a') => runOps d' a' rest o

/-- `Node.Patch`: the node must classify as a container (`intoContainer`
fails with `ErrInvalid` on anything else, before any operation runs, leaving
the node untouched); the accumulated copy size starts at zero on every
call. -/
def nodePatch (n : Node) (p : Patch) (o : Options) : Except PatchErr Node :=
  match n with
  | .scalar _ => .error .invalidNode
  | c => (runOps c 0 p o).map (fun r => r.1)

/-- `Patch.ApplyWithOptions`: apply to a fresh node of the document and
marshal the result (in the tree embedding the marshalled document is the
resulting tree). -/
def applyWithOptions (doc : Node) (p : Patch) (o : Options) : Except PatchErr Node :=
  nodePatch doc p o

/-! The diff engine (diff.go). -/

/-- `collector.withPathToken`: an empty token leaves the path unchanged. -/
def withPathToken (path token : String) : String :=
  if token == "" then path else path ++ "/" ++ token

/-- The first object loop of `Node.diff`: a `remove` for every source key
absent from the target, in source key order. -/
def objRemoves (path : String) : Fields → Fields → List Op
  | .nil, _ => []
  | .fcons k _ rest, g =>
    if (flookup k g).isSome then objRemoves path rest g
    else .remove (withPathToken path (encodePatchKey k)) :: objRemoves path rest g

/-- The trailing removal loop of `Node.diff` for arrays
(`for i := len(target.ary); i < nl; i++ removeOp(i)`): `count` indices
starting at `lt`, in ascending order. -/
def tailRemoves (path : String) (lt : Nat) : Nat → List Op
  | 0 => []
  | count + 1 => .remove (path ++ "/" ++ toString lt) :: tailRemoves path (lt + 1) count

/-- The identity-key check of `Node.diff` (diff.go lines 84-88):
`v := n.doc.obj[opts.IDKey]; !v.isNull() && !v.Equal(target.doc.obj[opts.IDKey])`.
`ok true` requests the whole-node replace.  When the source object lacks the
key, `v` is a nil pointer and `v.isNull()` dereferences it (`n.raw` on a nil
receiver): a Go runtime panic, embedded as `error`.  Likewise, when the
source value is non-null and the target lacks the key, `v.Equal(nil)` reads
`o.which` off a nil pointer and panics. -/
def idShortCircuit (opts : Option DiffOptions) (f g : Fields) : Except Unit Bool :=
  match opts with
  | none => .ok false
  | some dopts =>
    if dopts.idKey == "" then .ok false
    else
      match flookup dopts.idKey f with
      | none => .error ()
      | some v =>
        if nodeIsNull v then .ok false
        else
          match flookup dopts.idKey g with
          | none => .error ()
          | some w => if nodeEqual v w then .ok false else .ok true

mutual

/-- `Node.diff` (diff.go): no output for equal nodes; a whole-node `replace`
for a classification mismatch or non-container target; for objects the
optional identity-key short-circuit, then source-order removes followed by
target-order recursion/additions; for arrays positional recursion and
additions over the target indices followed by ascending removes of the
surplus source tail.  Errors are the embedded Go panics of the identity-key
check. -/
def diffNode (opts : Option DiffOptions) (n t : Node) (path : String) :
    Except Unit (List Op) :=
  if nodeEqual n t then .ok []
  else
    match n, t with
    | .obj f, .obj g =>
      match idShortCircuit opts f g with
      | .error e => .error e
      | .ok true => .ok [.replace path (.obj g)]
      | .ok false =>
        match diffTargetFields opts f g path with
        | .error e => .error e
        | .ok ops => .ok (objRemoves path f g ++ ops)
    | .arr xs, .arr ys =>
      match diffElems opts xs ys 0 path with
      | .error e => .error e
      | .ok ops =>
        .ok (ops ++ tailRemoves path (elemsLength ys) (elemsLength xs - elemsLength ys))
    | _, _ => .ok [.replace path t]

/-- The second object loop of `Node.diff`: for each target key in target key
order, recurse when the source has the key (path extended by the encoded
key) and emit an `add` otherwise.  The functional path threading restores
the collector path exactly; the source's `popPathToken` would corrupt it for
a pathological empty object key (push adds nothing, pop still strips a
segment), a corner not modelled here. -/
def diffTargetFields (opts : Option DiffOptions) (f : Fields) (g : Fields)
    (path : String) : Except Unit (List Op) :=
  match g with
  | .nil => .ok []
  | .fcons k w rest =>
    match flookup k f with
    | some v =>
      match diffNode opts v w (withPathToken path (encodePatchKey k)) with
      | .error e => .error e
      | .ok ops =>
        match diffTargetFields opts f rest path with
        | .error e => .error e
        | .ok more => .ok (ops ++ more)
    | none =>
      match diffTargetFields opts f rest path with
      | .error e => .error e
      | .ok more => .ok (.add (withPathToken path (encodePatchKey k)) w :: more)

/-- The array loop of `Node.diff` over the target indices: positional
recursion while the source still has an element at `i`, an `add` past the
source length. -/
def diffElems (opts : Option DiffOptions) (xs : Elems) (ys : Elems) (i : Nat)
    (path : String) : Except Unit (List Op) :=
  match ys with
  | .nil => .ok []
  | .econs y yr =>
    match xs with
    | .econs x xr =>
      match diffNode opts x y (path ++ "/" ++ toString i) with
      | .error e => .error e
      | .ok ops =>
        match diffElems opts xr yr (i + 1) path with
        | .error e => .error e
        | .ok more => .ok (ops ++ more)
    | .nil =>
      match diffElems opts .nil yr (i + 1) path with
      | .error e => .error e
      | .ok more => .ok (.add (path ++ "/" ++ toString i) y :: more)

end

/-- `Node.Diff`: run `diff` from the empty collector path. -/
def nodeDiff (n t : Node) (opts : Option DiffOptions) : Except Unit (List Op) :=
  diffNode opts n t ""

/-- The part of `Patch.copy` that runs before the size-limit check: resolve
and get the `from` value, resolve the target container, and report the
deep-copied byte size. -/
def copyProbeSize (d : Node) (fromPath tgt : String) (o : Options) : Option Nat :=
  match findParts fromPath with
  | none => none
  | some (fparts, fkey) =>
    match walkContainers o d fparts with
    | none => none
    | some fcon =>
      match containerGet fcon (decodePatchKey fkey) o with
      | .error _ => none
      | .ok val =>
        match findParts tgt with
        | none => none
        | some (tparts, _) =>
          match walkContainers o d tparts with
          | none => none
          | some _ => some (marshalLen val)

/-- Modelled from the spec: the JSON tokenizer/serializer is an external
collaborator of the library (spec section 1), so the decoded numeric value a
scalar token denotes is modelled here — an optional minus sign, integer
digits, and an optional fraction, read as a rational. -/
def splitAtDot : List Char → List Char × Option (List Char)
  | [] => ([], none)
  | '.' :: rest => ([], some rest)
  | c :: rest =>
    let r := splitAtDot rest
    (c :: r.1, r.2)

/-- Modelled from the spec: the rational value of an unsigned decimal
literal. -/
def decodeUnsigned (cs : List Char) : Option ℚ :=
  match splitAtDot cs with
  | (ip, none) => (parseDigits ip).map (fun n => (n : ℚ))
  | (ip, some fp) =>
    match parseDigits ip, parseDigits fp with
    | some n, some m => some ((n : ℚ) + (m : ℚ) / ((10 : ℚ) ^ fp.length))
    | _, _ => none

/-- Modelled from the spec: the decoded JSON value denoted by a numeric
scalar token. -/
def decodedNumber (s : String) : Option ℚ :=
  match s.data with
  | '-' :: rest => (decodeUnsigned rest).map Neg.neg
  | cs => decodeUnsigned cs

/-! Theorems. -/

/-- C1 (code bug): the round-trip property fails on arrays with a surplus
tail of length two.  Diffing `[1,2,3]` against `[1]` emits the tail removes
in ascending index order, and applying that patch back to `[1,2,3]` aborts
with `ErrInvalidIndex` at the second remove (the first remove shifted the
array down), instead of producing `[1]`. -/
theorem roundtrip_multi_tail_removal_fails :
    nodeDiff
      (.arr (.econs (.scalar "1") (.econs (.scalar "2") (.econs (.scalar "3") .nil))))
      (.arr (.econs (.scalar "1") .nil)) none
      = .ok [.remove "/1", .remove "/2"]
    ∧ nodePatch
      (.arr (.econs (.scalar "1") (.econs (.scalar "2") (.econs (.scalar "3") .nil))))
      [.remove "/1", .remove "/2"] newOptions
      = .error .invalidIndex := ⟨rfl, rfl⟩

/-- C2 (code bug): for a source array longer than the destination, the diff
engine emits the surplus-tail removes in ascending index order (`/1`, `/2`,
`/3`), not in the descending order the specification requires. -/
theorem diff_tail_removes_ascending :
    nodeDiff
      (.arr (.econs (.scalar "10")
        (.econs (.scalar "20") (.econs (.scalar "30") (.econs (.scalar "40") .nil)))))
      (.arr (.econs (.scalar "10") .nil)) none
      = .ok [.remove "/1", .remove "/2", .remove "/3"] := rfl

/-- C6 counterexample: the raw tokens `1.0` and `1.00` denote the same
decoded JSON number, yet `Node.Equal` returns false on them, because scalar
comparison is `bytes.Equal` on the raw spans. -/
theorem scalar_equal_number_format_counterexample :
    decodedNumber "1.0" = some 1 ∧ decodedNumber "1.00" = some 1
    ∧ nodeEqual (.scalar "1.0") (.scalar "1.00") = false := by
  refine ⟨?_, ?_, rfl⟩ <;>
    simp [decodedNumber, decodeUnsigned, splitAtDot, parseDigits, parseDigitsAux]

/-- C6 (amended): scalar node equality is exact raw-byte equality of the
encoded spans; two scalar tokens that denote the same decoded number under
different encodings (such as `1.0` and `1.00`) are not Equal. -/
theorem scalar_equal_is_raw_byte_equality :
    (∀ a b : String, nodeEqual (.scalar a) (.scalar b) = true ↔ a = b)
    ∧ decodedNumber "1.0" = decodedNumber "1.00"
    ∧ nodeEqual (.scalar "1.0") (.scalar "1.00") = false := by
  refine ⟨fun a b => ?_, ?_, rfl⟩
  · show (a == b) = true ↔ a = b
    exact beq_iff_eq
  · simp [decodedNumber, decodeUnsigned, splitAtDot, parseDigits, parseDigitsAux]

/-- C9 (code bug): with a non-empty `IDKey` and a source object lacking that
key, `Node.diff` dereferences the nil `*Node` returned by the map lookup
(`v.isNull()` reads `n.raw` off a nil receiver) and the whole `Diff` call
panics instead of returning a patch or an error. -/
theorem diff_idkey_missing_source_panics :
    nodeDiff (.obj (.fcons "a" (.scalar "1") .nil))
      (.obj (.fcons "a" (.scalar "2") .nil))
      (some (DiffOptions.mk "id")) = .error () := rfl

/-- A mismatching key falsifies the per-key object loop of `Node.Equal`. -/
theorem fieldsSubset_mismatch {k : String} {v w : Node} :
    ∀ {f g : Fields}, flookup k f = some v → flookup k g = some w →
      nodeEqual v w = false → fieldsSubset f g = false
  | .nil, _, hv, _, _ => by simp [flookup] at hv
  | .fcons k' v' rest, g, hv, hw, hne => by
    rw [flookup] at hv
    by_cases hk : (k' == k) = true
    · rw [if_pos hk] at hv
      injection hv with hv
      subst hv
      have hkk : k' = k := eq_of_beq hk
      subst hkk
      rw [fieldsSubset, hw]
      simp [hne]
    · rw [if_neg hk] at hv
      rw [fieldsSubset, fieldsSubset_mismatch hv hw hne]
      simp

/-- C4: with a non-empty identity key whose source value is present,
non-null, and unequal to the present destination value, `Node.diff` on two
objects returns exactly one whole-node `replace` carrying the destination
object at the current path, with no field-by-field recursion. -/
theorem idkey_mismatch_single_replace (f g : Fields) (k : String) (hk : ¬k = "")
    (v w : Node) (hv : flookup k f = some v) (hvn : nodeIsNull v = false)
    (hw : flookup k g = some w) (hne : nodeEqual v w = false) (path : String) :
    diffNode (some (DiffOptions.mk k)) (.obj f) (.obj g) path
      = .ok [.replace path (.obj g)] := by
  have heq : nodeEqual (.obj f) (.obj g) = false := by
    rw [nodeEqual, fieldsSubset_mismatch hv hw hne]
    simp
  have hkb : (k == "") = false := by
    simpa using hk
  rw [diffNode, heq]
  simp [idShortCircuit, hkb, hv, hvn, hw, hne]

/-- Witness for C4: the specification's own scenario, diffing John against
Jane with identity key `name`. -/
theorem idkey_mismatch_single_replace_witness :
    diffNode (some (DiffOptions.mk "name"))
      (.obj (.fcons "name" (.scalar "\"John\"")
        (.fcons "age" (.scalar "24") (.fcons "height" (.scalar "3.21") .nil))))
      (.obj (.fcons "name" (.scalar "\"Jane\"") (.fcons "age" (.scalar "24") .nil)))
      ""
      = .ok [.replace ""
          (.obj (.fcons "name" (.scalar "\"Jane\"") (.fcons "age" (.scalar "24") .nil)))] :=
  idkey_mismatch_single_replace
    (.fcons "name" (.scalar "\"John\"")
      (.fcons "age" (.scalar "24") (.fcons "height" (.scalar "3.21") .nil)))
    (.fcons "name" (.scalar "\"Jane\"") (.fcons "age" (.scalar "24") .nil))
    "name" (by decide) (.scalar "\"John\"") (.scalar "\"Jane\"") rfl rfl rfl rfl ""

/-- The operation loop distributes over list append: the tail only runs from
the state the prefix reaches, and a prefix error is final. -/
theorem runOps_append (o : Options) (l1 l2 : List Op) :
    ∀ (d : Node) (a : Int), runOps d a (l1 ++ l2) o =
      match runOps d a l1 o with
      | .ok da => runOps da.1 da.2 l2 o
      | .error e => .error e := by
  induction l1 with
  | nil =>
    intro d a
    rfl
  | cons op rest ih =>
    intro d a
    simp only [List.cons_append, runOps]
    cases hx : execOp d a op o with
    | error e => rfl
    | ok da => exact ih da.1 da.2

/-- A successful `copy` leaves the counter within a positive limit: the
operation checks the limit right after adding the duplicated size. -/
theorem opCopy_ok_bound {root : Node} {f p : String} {a : Int} {o : Options}
    {r : Node} {a' : Int} (h : opCopy root f p a o = .ok (r, a'))
    (hL : 0 < o.accumulatedCopySizeLimit) : a' ≤ o.accumulatedCopySizeLimit := by
  unfold opCopy at h
  cases h1 : findParts f with
  | none =>
    simp only [h1] at h
    cases h
  | some fpk =>
    obtain ⟨fparts, fkey⟩ := fpk
    simp only [h1] at h
    cases h2 : walkContainers o root fparts with
    | none =>
      simp only [h2] at h
      cases h
    | some fcon =>
      simp only [h2] at h
      cases h3 : containerGet fcon (decodePatchKey fkey) o with
      | error e =>
        simp only [h3] at h
        cases h
      | ok val =>
        simp only [h3] at h
        cases h4 : findParts p with
        | none =>
          simp only [h4] at h
          cases h
        | some tpk =>
          obtain ⟨tparts, tkey⟩ := tpk
          simp only [h4] at h
          cases h5 : walkContainers o root tparts with
          | none =>
            simp only [h5] at h
            cases h
          | some tcon =>
            simp only [h5] at h
            by_cases hg : 0 < o.accumulatedCopySizeLimit ∧
                o.accumulatedCopySizeLimit < a + (marshalLen val : Int)
            · rw [if_pos hg] at h
              cases h
            · rw [if_neg hg] at h
              push_neg at hg
              cases h6 : mutatePath o root p (fun con key => containerAdd con key val o) with
              | error e =>
                rw [h6] at h
                cases e <;> cases h
              | ok root2 =>
                rw [h6] at h
                injection h with h
                injection h with hr hacc
                have := hg hL
                omega

/-- A successful operation keeps the accumulated copy size within a positive
limit (only `copy` changes the counter). -/
theorem execOp_ok_bound {d : Node} {a : Int} {op : Op} {o : Options}
    {d' : Node} {a' : Int} (h : execOp d a op o = .ok (d', a'))
    (hL : 0 < o.accumulatedCopySizeLimit) (ha : a ≤ o.accumulatedCopySizeLimit) :
    a' ≤ o.accumulatedCopySizeLimit := by
  cases op with
  | copy f p => exact opCopy_ok_bound h hL
  | add p v =>
    simp only [execOp] at h
    cases hx : opAdd d p v o
    · simp [hx, Except.map] at h
    · simp [hx, Except.map] at h
      omega
  | remove p =>
    simp only [execOp] at h
    cases hx : opRemove d p o
    · simp [hx, Except.map] at h
    · simp [hx, Except.map] at h
      omega
  | replace p v =>
    simp only [execOp] at h
    cases hx : opReplace d p v o
    · simp [hx, Except.map] at h
    · simp [hx, Except.map] at h
      omega
  | move f p =>
    simp only [execOp] at h
    cases hx : opMove d f p o
    · simp [hx, Except.map] at h
    · simp [hx, Except.map] at h
      omega
  | test p v =>
    simp only [execOp] at h
    cases hx : opTest d p v o
    · simp [hx, Except.map] at h
    · simp [hx, Except.map] at h
      omega

/-- Loop invariant: a successful run never lets the counter pass a positive
limit. -/
theorem runOps_ok_bound {o : Options} (hL : 0 < o.accumulatedCopySizeLimit) :
    ∀ (l : List Op) (d : Node) (a : Int) (d' : Node) (a' : Int),
      runOps d a l o = .ok (d', a') → a ≤ o.accumulatedCopySizeLimit →
      a' ≤ o.accumulatedCopySizeLimit := by
  intro l
  induction l with
  | nil =>
    intro d a d' a' h ha
    simp only [runOps] at h
    injection h with h
    injection h with h1 h2
    omega
  | cons op rest ih =>
    intro d a d' a' h ha
    simp only [runOps] at h
    cases hx : execOp d a op o with
    | error e => rw [hx] at h; cases h
    | ok da =>
      rw [hx] at h
      exact ih da.1 da.2 d' a' h (execOp_ok_bound hx hL ha)

/-- When both paths of a `copy` resolve and the duplicated size pushes the
counter past a positive limit, the operation fails with exactly the
accumulated-copy-size error, before performing the add. -/
theorem opCopy_overflow {d : Node} {f p : String} {o : Options} {s : Nat} {a : Int}
    (hs : copyProbeSize d f p o = some s)
    (hL : 0 < o.accumulatedCopySizeLimit)
    (hover : o.accumulatedCopySizeLimit < a + s) :
    opCopy d f p a o = .error (.copyOverflow o.accumulatedCopySizeLimit (a + s)) := by
  unfold copyProbeSize at hs
  cases h1 : findParts f with
  | none => simp only [h1] at hs; cases hs
  | some fpk =>
    obtain ⟨fparts, fkey⟩ := fpk
    simp only [h1] at hs
    cases h2 : walkContainers o d fparts with
    | none => simp only [h2] at hs; cases hs
    | some fcon =>
      simp only [h2] at hs
      cases h3 : containerGet fcon (decodePatchKey fkey) o with
      | error e => simp only [h3] at hs; cases hs
      | ok val =>
        simp only [h3] at hs
        cases h4 : findParts p with
        | none => simp only [h4] at hs; cases hs
        | some tpk =>
          obtain ⟨tparts, tkey⟩ := tpk
          simp only [h4] at hs
          cases h5 : walkContainers o d tparts with
          | none => simp only [h5] at hs; cases hs
          | some tcon =>
            simp only [h5] at hs
            injection hs with hs
            unfold opCopy
            simp only [h1, h2, h3, h4, h5]
            rw [if_pos ⟨hL, by omega⟩, hs]

/-- C3: under a positive copy-size limit, once a prefix of the patch has run
and the next operation is a `copy` whose resolved duplicated size pushes the
counter (reset at the start of the apply call) past the limit, the whole
apply fails with exactly the accumulated-copy-size error; the counter had
not passed the limit before this operation, and the run equals the run of
the patch truncated right after the offending copy, so no later operation
executes. -/
theorem copy_budget_first_excess_aborts (o : Options)
    (hL : 0 < o.accumulatedCopySizeLimit)
    (d0 : Node) (ops : List Op) (i : Nat) (d : Node) (a : Int)
    (hpre : runOps d0 0 (ops.take i) o = .ok (d, a))
    (f p : String) (hop : ops.get? i = some (.copy f p))
    (s : Nat) (hs : copyProbeSize d f p o = some s)
    (hover : o.accumulatedCopySizeLimit < a + s) :
    runOps d0 0 ops o = .error (.copyOverflow o.accumulatedCopySizeLimit (a + s))
    ∧ a ≤ o.accumulatedCopySizeLimit
    ∧ runOps d0 0 ops o = runOps d0 0 (ops.take (i + 1)) o := by
  have ha : a ≤ o.accumulatedCopySizeLimit :=
    runOps_ok_bound hL (ops.take i) d0 0 d a hpre (le_of_lt hL)
  have htake : ops.take (i + 1) = ops.take i ++ [Op.copy f p] := by
    rw [List.take_succ]
    have : ops[i]? = some (Op.copy f p) := by
      rw [← List.get?_eq_getElem?]
      exact hop
    rw [this]
    rfl
  have hrun1 : runOps d0 0 (ops.take (i + 1)) o
      = .error (.copyOverflow o.accumulatedCopySizeLimit (a + s)) := by
    rw [htake, runOps_append, hpre]
    show runOps d a [Op.copy f p] o = _
    have hc : execOp d a (Op.copy f p) o
        = .error (.copyOverflow o.accumulatedCopySizeLimit (a + s)) :=
      opCopy_overflow hs hL hover
    simp only [runOps, hc]
  have hdecomp : runOps d0 0 ops o = runOps d0 0 (ops.take (i + 1)) o := by
    conv_lhs => rw [← List.take_append_drop (i + 1) ops]
    rw [runOps_append, hrun1]
  exact ⟨hdecomp.trans hrun1, ha, hdecomp⟩

/-- Witness for C3: one `copy` duplicating a four-byte value under a limit
of three aborts the apply with the accumulated-copy-size error. -/
theorem copy_budget_first_excess_aborts_witness :
    runOps (.obj (.fcons "a" (.scalar "\"xx\"") .nil)) 0 [.copy "/a" "/b"]
        ⟨true, 3, false, false⟩
      = .error (.copyOverflow 3 4)
    ∧ (0 : Int) ≤ 3
    ∧ runOps (.obj (.fcons "a" (.scalar "\"xx\"") .nil)) 0 [.copy "/a" "/b"]
        ⟨true, 3, false, false⟩
      = runOps (.obj (.fcons "a" (.scalar "\"xx\"") .nil)) 0
          ([Op.copy "/a" "/b"].take 1) ⟨true, 3, false, false⟩ :=
  copy_budget_first_excess_aborts ⟨true, 3, false, false⟩ (by decide)
    (.obj (.fcons "a" (.scalar "\"xx\"") .nil)) [.copy "/a" "/b"] 0
    (.obj (.fcons "a" (.scalar "\"xx\"") .nil)) 0 rfl "/a" "/b" rfl 4 rfl (by decide)

/-- A successful map lookup means the key is in the key order. -/
theorem flookup_mem_keys : ∀ {g : Fields} {k : String} {v : Node},
    flookup k g = some v → k ∈ fieldKeys g
  | .nil, _, _, h => by simp [flookup] at h
  | .fcons k' v' rest, k, v, h => by
    rw [flookup] at h
    by_cases hk : (k' == k) = true
    · have : k' = k := eq_of_beq hk
      subst this
      simp [fieldKeys]
    · rw [if_neg hk] at h
      simp only [fieldKeys, List.mem_cons]
      exact Or.inr (flookup_mem_keys h)

/-- A key in the key order has a value in the map. -/
theorem mem_keys_flookup : ∀ {g : Fields} {k : String},
    k ∈ fieldKeys g → ∃ w, flookup k g = some w
  | .nil, k, h => by simp [fieldKeys] at h
  | .fcons k' v' rest, k, h => by
    rw [flookup]
    by_cases hk : (k' == k) = true
    · rw [if_pos hk]
      exact ⟨v', rfl⟩
    · rw [if_neg hk]
      apply mem_keys_flookup
      rcases List.mem_cons.mp (by simpa [fieldKeys] using h) with h1 | h2
      · exact absurd (by rw [h1]; simp : (k' == k) = true) hk
      · exact h2

/-- The map size equals the key-order length (keys are unique). -/
theorem fieldsLength_keys : ∀ f : Fields, fieldsLength f = (fieldKeys f).length
  | .nil => rfl
  | .fcons _ _ rest => by
    rw [fieldsLength, fieldKeys, List.length_cons, fieldsLength_keys rest]

/-- Sufficiency half of object equality: unique keys on the left, key
containment, and per-key equal values make the per-key loop succeed. -/
theorem fieldsSubset_of_pointwise :
    ∀ {f g : Fields}, (fieldKeys f).Nodup →
      (∀ k, k ∈ fieldKeys f → k ∈ fieldKeys g) →
      (∀ k v w, flookup k f = some v → flookup k g = some w → nodeEqual v w = true) →
      fieldsSubset f g = true
  | .nil, _, _, _, _ => rfl
  | .fcons k v rest, g, hnd, hsub, hvals => by
    rw [fieldsSubset]
    obtain ⟨w, hw⟩ := mem_keys_flookup (hsub k (by simp [fieldKeys]))
    have hv : flookup k (Fields.fcons k v rest) = some v := by
      rw [flookup, if_pos (by simp)]
    simp only [hw]
    rw [hvals k v w hv hw]
    have hnotin : k ∉ fieldKeys rest := by
      have := hnd
      rw [fieldKeys, List.nodup_cons] at this
      exact this.1
    have hnd' : (fieldKeys rest).Nodup := by
      have := hnd
      rw [fieldKeys, List.nodup_cons] at this
      exact this.2
    have hsub' : ∀ k2, k2 ∈ fieldKeys rest → k2 ∈ fieldKeys g := by
      intro k2 hk2
      exact hsub k2 (by simp [fieldKeys, hk2])
    have hvals' : ∀ k2 v2 w2, flookup k2 rest = some v2 → flookup k2 g = some w2 →
        nodeEqual v2 w2 = true := by
      intro k2 v2 w2 hv2 hw2
      have hne : (k == k2) = false := by
        have hmem := flookup_mem_keys hv2
        refine beq_eq_false_iff_ne.mpr (fun hkk => ?_)
        exact hnotin (hkk ▸ hmem)
      have : flookup k2 (Fields.fcons k v rest) = some v2 := by
        rw [flookup, if_neg (by simp [hne])]
        exact hv2
      exact hvals k2 v2 w2 this hw2
    rw [fieldsSubset_of_pointwise hnd' hsub' hvals']
    rfl

/-- Necessity half of array equality: the per-index loop makes every pair of
same-index elements equal. -/
theorem elemsPointwise_get : ∀ {xs ys : Elems}, elemsPointwise xs ys = true →
    ∀ i v w, eget i xs = some v → eget i ys = some w → nodeEqual v w = true
  | .nil, _, _, _, _, _, hv, _ => by simp [eget] at hv
  | .econs _ _, .nil, _, _, _, _, _, hw => by simp [eget] at hw
  | .econs x xr, .econs y yr, hp, i, v, w, hv, hw => by
    rw [elemsPointwise, Bool.and_eq_true] at hp
    obtain ⟨h1, h2⟩ := hp
    cases i with
    | zero =>
      simp only [eget] at hv hw
      injection hv with hv
      injection hw with hw
      subst hv
      subst hw
      exact h1
    | succ j =>
      simp only [eget] at hv hw
      exact elemsPointwise_get h2 j v w hv hw

/-- C5: object equality ignores key order — two objects with permuted key
sequences (keys unique) and per-key recursively equal values are Equal —
while array equality is order-sensitive: Equal arrays have equal length and
per-index recursively equal elements.  The specification's concrete pair of
examples is included. -/
theorem equal_objects_unordered_arrays_ordered
    (f g : Fields) (hf : (fieldKeys f).Nodup)
    (hperm : (fieldKeys f).Perm (fieldKeys g))
    (hvals : ∀ k v w, flookup k f = some v → flookup k g = some w →
      nodeEqual v w = true)
    (xs ys : Elems) (hxy : nodeEqual (.arr xs) (.arr ys) = true) :
    nodeEqual (.obj f) (.obj g) = true
    ∧ elemsLength xs = elemsLength ys
    ∧ (∀ i v w, eget i xs = some v → eget i ys = some w → nodeEqual v w = true)
    ∧ nodeEqual (.obj (.fcons "a" (.scalar "1") (.fcons "b" (.scalar "2") .nil)))
        (.obj (.fcons "b" (.scalar "2") (.fcons "a" (.scalar "1") .nil))) = true
    ∧ nodeEqual (.arr (.econs (.scalar "1") (.econs (.scalar "2") .nil)))
        (.arr (.econs (.scalar "2") (.econs (.scalar "1") .nil))) = false := by
  rw [nodeEqual, Bool.and_eq_true] at hxy
  obtain ⟨hlen, hpw⟩ := hxy
  refine ⟨?_, by simpa using hlen, elemsPointwise_get hpw, rfl, rfl⟩
  rw [nodeEqual]
  rw [fieldsSubset_of_pointwise hf (fun k hk => hperm.mem_iff.mp hk) hvals]
  have : fieldsLength f = fieldsLength g := by
    rw [fieldsLength_keys, fieldsLength_keys, hperm.length_eq]
  simp [this]

/-- Witness for C5: the specification's object pair, and a pair of equal
one-element arrays. -/
theorem equal_objects_unordered_arrays_ordered_witness :
    nodeEqual (.obj (.fcons "a" (.scalar "1") (.fcons "b" (.scalar "2") .nil)))
        (.obj (.fcons "b" (.scalar "2") (.fcons "a" (.scalar "1") .nil))) = true
    ∧ elemsLength (.econs (.scalar "7") .nil) = elemsLength (.econs (.scalar "7") .nil)
    ∧ (∀ i v w, eget i (.econs (.scalar "7") .nil) = some v →
        eget i (.econs (.scalar "7") .nil) = some w → nodeEqual v w = true)
    ∧ nodeEqual (.obj (.fcons "a" (.scalar "1") (.fcons "b" (.scalar "2") .nil)))
        (.obj (.fcons "b" (.scalar "2") (.fcons "a" (.scalar "1") .nil))) = true
    ∧ nodeEqual (.arr (.econs (.scalar "1") (.econs (.scalar "2") .nil)))
        (.arr (.econs (.scalar "2") (.econs (.scalar "1") .nil))) = false :=
  equal_objects_unordered_arrays_ordered
    (.fcons "a" (.scalar "1") (.fcons "b" (.scalar "2") .nil))
    (.fcons "b" (.scalar "2") (.fcons "a" (.scalar "1") .nil))
    (by decide) (by decide)
    (by
      intro k v w hv hw
      by_cases hA : k = "a"
      · subst hA
        have h1 : some (Node.scalar "1") = some v :=
          (show some (Node.scalar "1")
              = flookup "a" (Fields.fcons "a" (.scalar "1")
                  (.fcons "b" (.scalar "2") .nil)) from rfl).trans hv
        have h2 : some (Node.scalar "1") = some w :=
          (show some (Node.scalar "1")
              = flookup "a" (Fields.fcons "b" (.scalar "2")
                  (.fcons "a" (.scalar "1") .nil)) from rfl).trans hw
        injection h1 with h1
        injection h2 with h2
        subst h1
        subst h2
        rfl
      · by_cases hB : k = "b"
        · subst hB
          have h1 : some (Node.scalar "2") = some v :=
            (show some (Node.scalar "2")
                = flookup "b" (Fields.fcons "a" (.scalar "1")
                    (.fcons "b" (.scalar "2") .nil)) from rfl).trans hv
          have h2 : some (Node.scalar "2") = some w :=
            (show some (Node.scalar "2")
                = flookup "b" (Fields.fcons "b" (.scalar "2")
                    (.fcons "a" (.scalar "1") .nil)) from rfl).trans hw
          injection h1 with h1
          injection h2 with h2
          subst h1
          subst h2
          rfl
        · exfalso
          have hA' : ("a" == k) = false :=
            beq_eq_false_iff_ne.mpr (fun h => hA h.symm)
          have hB' : ("b" == k) = false :=
            beq_eq_false_iff_ne.mpr (fun h => hB h.symm)
          rw [flookup, if_neg (by simp [hA']), flookup, if_neg (by simp [hB']),
            flookup] at hv
          cases hv)
    (.econs (.scalar "7") .nil) (.econs (.scalar "7") .nil) rfl

/-- C7 counterexample: a `test` against `null` at an absent array index does
not succeed — it aborts the apply with `ErrInvalidIndex`, because the
`partialArray.get` failure is not an `ErrMissing` error and is not tolerated
by the test operation. -/
theorem test_absent_array_index_errors :
    nodePatch (.arr (.econs (.scalar "\"x\"") .nil))
      [.test "/1" (some (.scalar "null"))] newOptions = .error .invalidIndex := rfl

/-- C7 (amended): at a path whose parent container resolves, `test` treats a
missing object key like an explicit `null` (succeeding exactly when the
operation value is absent or `null`), and likewise for a present null value;
a present non-null value succeeds exactly when the operation value is
present and structurally equal; but for an array element path an
out-of-range index makes `test` fail with `ErrInvalidIndex` — the
null-vs-absent equivalence does not extend to absent array indices. -/
theorem test_null_absent_semantics (root : Node) (path : String) (o : Options)
    (parts : List String) (key : String)
    (hsplit : findParts path = some (parts, key))
    (con : Node) (hwalk : walkContainers o root parts = some con)
    (v : Option Node) :
    (∀ f, con = .obj f → flookup (decodePatchKey key) f = none →
      opTest root path v o = (if opValueIsNull v then .ok () else .error .testFailed))
    ∧ (∀ val, containerGet con (decodePatchKey key) o = .ok val →
        nodeIsNull val = true →
        opTest root path v o = (if opValueIsNull v then .ok () else .error .testFailed))
    ∧ (∀ val, containerGet con (decodePatchKey key) o = .ok val →
        nodeIsNull val = false →
        opTest root path v o =
          (match v with
           | none => .error .testFailed
           | some w => if nodeEqual val w then .ok () else .error .testFailed))
    ∧ (∀ xs idx, con = .arr xs → parseInt (decodePatchKey key) = some idx →
        (elemsLength xs : Int) ≤ idx →
        opTest root path v o = .error .invalidIndex) := by
  have hpne : (path == "") = false := by
    refine beq_eq_false_iff_ne.mpr (fun hp => ?_)
    rw [hp] at hsplit
    simp [findParts, strSplit, splitChars] at hsplit
  refine ⟨?_, ?_, ?_, ?_⟩
  · intro f hcon hlk
    subst hcon
    rw [opTest, if_neg (by simp [hpne])]
    have hget : containerGet (.obj f) (decodePatchKey key) o = .error .missing := by
      rw [containerGet]
      simp only [hlk]
    simp only [hsplit, hwalk, hget]
  · intro val hget hnull
    rw [opTest, if_neg (by simp [hpne])]
    simp only [hsplit, hwalk, hget, hnull]
    cases hget2 : containerGet con (decodePatchKey key) o <;> simp_all
  · intro val hget hnull
    rw [opTest, if_neg (by simp [hpne])]
    simp only [hsplit, hwalk, hget, hnull]
    cases hget2 : containerGet con (decodePatchKey key) o <;> simp_all
  · intro xs idx hcon hparse hge
    subst hcon
    rw [opTest, if_neg (by simp [hpne])]
    have hridx : arrResolveIdx (elemsLength xs) (decodePatchKey key) o
        = .error .invalidIndex := by
      rw [arrResolveIdx]
      simp only [hparse]
      rw [if_neg (by omega), if_pos hge]
    have hget : containerGet (.arr xs) (decodePatchKey key) o
        = .error .invalidIndex := by
      rw [containerGet]
      simp only [hridx]
    simp only [hsplit, hwalk, hget]

/-- Witness for C7 (amended): a test for `null` at an absent object key
succeeds. -/
theorem test_null_absent_semantics_witness :
    opTest (.obj (.fcons "a" (.scalar "1") .nil)) "/b" (some (.scalar "null"))
      newOptions = .ok () :=
  ((test_null_absent_semantics (.obj (.fcons "a" (.scalar "1") .nil)) "/b"
      newOptions [] "b" rfl (.obj (.fcons "a" (.scalar "1") .nil)) rfl
      (some (.scalar "null"))).1 (.fcons "a" (.scalar "1") .nil) rfl rfl)

/-- C8: removing at a valid-integer array index at or past the length fails
the apply with `ErrInvalidIndex` when `AllowMissingPathOnRemove` is off, and
succeeds as a no-op — the document unchanged — when it is on. -/
theorem remove_out_of_range_array_index (xs : Elems) (key : String) (idx : Int)
    (hp : parseInt (decodePatchKey key) = some idx)
    (hge : (elemsLength xs : Int) ≤ idx)
    (o : Options) (path : String)
    (hpath : strSplit '/' path = ["", key]) :
    nodePatch (.arr xs) [.remove path] o =
      (if o.allowMissingPathOnRemove then .ok (.arr xs) else .error .invalidIndex) := by
  have hfp : findParts path = some ([], key) := by
    rw [findParts, hpath]
    rfl
  have harr : arrRemove xs (decodePatchKey key) o =
      (if o.allowMissingPathOnRemove then .ok xs else .error .invalidIndex) := by
    rw [arrRemove]
    simp only [hp]
    rw [if_pos hge]
  cases hb : o.allowMissingPathOnRemove with
  | true =>
    simp [nodePatch, runOps, execOp, opRemove, mutatePath, hfp, mutateGo,
      containerRemove, harr, hb, Except.map]
  | false =>
    simp [nodePatch, runOps, execOp, opRemove, mutatePath, hfp, mutateGo,
      containerRemove, harr, hb, Except.map]

/-- Witness for C8: removing index 1 from a one-element array fails with
`ErrInvalidIndex` under the default options. -/
theorem remove_out_of_range_array_index_witness :
    nodePatch (.arr (.econs (.scalar "1") .nil)) [.remove "/1"] newOptions
      = .error .invalidIndex :=
  remove_out_of_range_array_index (.econs (.scalar "1") .nil) "1" 1 rfl
    (by decide) newOptions "/1" rfl

/-- C10: a document whose root classifies as a non-container (any scalar,
including `null`, to which empty input is normalized) makes `Node.Patch` and
`ApplyWithOptions` fail with `ErrInvalid` for every patch, the empty patch
included; the failure happens in `intoContainer` before any operation runs,
so the node's content is untouched. -/
theorem patch_non_container_root_fails (s : String) (p : Patch) (o : Options) :
    nodePatch (.scalar s) p o = .error .invalidNode
    ∧ applyWithOptions (.scalar s) p o = .error .invalidNode := ⟨rfl, rfl⟩

end JsonPatch
